import Mathlib

/-!
Verification of the document-word-extractor pipeline (`src/index.js`).

The program is a one-shot batch transform: it reads an input text, a list of
special characters, an ignored-word list and a known-word list, normalizes the
text (space flattening, lower-casing, special-character stripping), splits it
into lines, drops empty lines, sorts, deduplicates, removes the ignored and
known words, and joins the survivors with line breaks into `output.txt`.

JavaScript strings are modelled as `List Char` (sequences of Unicode scalar
values).  The default `Array.prototype.sort()` comparator compares strings by
their sequences of UTF-16 code units (ECMA-262 abstract relational comparison),
which we model explicitly via `utf16Key`.
-/

namespace DocWordExtractor

/-- A JavaScript string, as a list of Unicode scalar values. -/
abbrev Str := List Char

/-! ### The UTF-16 string order used by `Array.prototype.sort()` -/

/-- The UTF-16 code units of a character: one unit below `0x10000`, a
surrogate pair for supplementary characters. -/
def utf16units (c : Char) : List Nat :=
  if c.toNat < 65536 then [c.toNat]
  else [55296 + (c.toNat - 65536) / 1024, 56320 + (c.toNat - 65536) % 1024]

/-- The UTF-16 code-unit sequence of a string, the key `sort()` compares. -/
def utf16Key (s : Str) : List Nat := (s.map utf16units).flatten

/-- Lexicographic strict order on `Nat` sequences. -/
def ltKey : List Nat → List Nat → Bool
  | _, [] => false
  | [], _ :: _ => true
  | a :: as, b :: bs => if a < b then true else if b < a then false else ltKey as bs

/-- Strict string order of the default `sort()` comparator. -/
def jsLt (s t : Str) : Prop := ltKey (utf16Key s) (utf16Key t) = true

/-- Non-strict string order of the default `sort()` comparator. -/
def jsLe (s t : Str) : Prop := ltKey (utf16Key t) (utf16Key s) = false

instance : DecidableRel jsLt := fun s t => by unfold jsLt; infer_instance

instance : DecidableRel jsLe := fun s t => by unfold jsLe; infer_instance

/-- Lexicographic comparison of strings by Unicode code points (what the spec
calls codepoint order; it differs from the UTF-16 order on supplementary
characters). -/
def cpLt (s t : Str) : Prop := ltKey (s.map Char.toNat) (t.map Char.toNat) = true

instance : DecidableRel cpLt := fun s t => by unfold cpLt; infer_instance

/-! ### The source functions of `src/index.js` -/

/-- Source `getSpecialCharacters`: the file content split with `split('')`, one entry
per character.  Since `Str` is already a character list this is the identity. -/
def getSpecialCharacters (s : Str) : List Char := s

/-- JavaScript `split('\n')`: the segments between line breaks, empty
segments kept; the split of the empty string is `[""]`. -/
def splitLines (s : Str) : List Str :=
  s.foldr
    (fun c acc =>
      if c = '\n' then [] :: acc
      else
        match acc with
        | [] => [[c]]
        | h :: t => (c :: h) :: t)
    [[]]

/-- Source `getListOfWords`: the file content split on line breaks. -/
def getListOfWords (s : Str) : List Str := splitLines s

/-- Source `flattenText`: `input.replace(/ /g, '\n')`, every space character
(U+0020, and only that character) becomes a line break. -/
def flattenText (input : Str) : Str :=
  input.map (fun c => if c = ' ' then '\n' else c)

/-- Model of `String.prototype.toLowerCase` as the per-character simple case
mapping; only the ASCII rows of the Unicode table are spelled out, as no claim
depends on any other entry of the table. -/
def jsToLower (c : Char) : Char :=
  if 'A' ≤ c ∧ c ≤ 'Z' then Char.ofNat (c.toNat + 32) else c

/-- Model of `inputText.toLowerCase()` applied to a whole string. -/
def toLowerCaseText (s : Str) : Str := s.map jsToLower

/-- The characters the regex escaper treats as metacharacters:
`. * + ? ^ $ { } ( ) | [ ] \`. -/
def regexMetaChars : List Char :=
  ['.', '*', '+', '?', '^', '$', Char.ofNat 123, Char.ofNat 125,
   '(', ')', '|', '[', ']', '\\']

/-- Source `escapeExpression`: `expression.replace(/[.*+?^${}()|[\]\\]/g, '\\$&')`,
a backslash is inserted before every metacharacter. -/
def escapeExpression (expression : Str) : Str :=
  (expression.map (fun c => if c ∈ regexMetaChars then ['\\', c] else [c])).flatten

/-- Source `buildRegEx`: the regex object is represented by its source pattern; the
`g` flag is reflected in `regexReplaceAll` removing every match. -/
def buildRegEx (expression : Str) : Str := escapeExpression expression

/-- Whether a single-character regex pattern (possibly backslash-escaped, the
only shapes `buildRegEx` produces for one-character inputs) matches a
character.  An escaped metacharacter matches itself literally; an unescaped
dot would match anything but a line terminator. -/
def regexCharMatch (pattern : Str) (c : Char) : Bool :=
  match pattern with
  | ['\\', d] => c == d
  | [d] =>
      if d = '.' then
        !(c == '\n') && !(c == Char.ofNat 13) &&
          !(c == Char.ofNat 8232) && !(c == Char.ofNat 8233)
      else c == d
  | _ => false

/-- Semantics of `text.replace(re, '')` for a global single-character regex: every matching
character is removed. -/
def regexReplaceAll (pattern : Str) (text : Str) : Str :=
  text.filter (fun c => !(regexCharMatch pattern c))

/-- Source `removeCharacters`: folds over the special characters in list order,
removing all instances of each via the escaped global regex. -/
def removeCharacters (text : Str) (chars : List Char) : Str :=
  chars.foldl (fun t ch => regexReplaceAll (buildRegEx [ch]) t) text

/-- Source `removeWords`: `words.filter(word => !wordsToRemove.includes(word))`. -/
def removeWords (words : List Str) (wordsToRemove : List Str) : List Str :=
  words.filter (fun w => !(wordsToRemove.contains w))

/-- Model of `[...new Set(inputLines)]`: keeps the first occurrence of every element,
in order.  `seen` accumulates the elements already emitted. -/
def setDedupAux [DecidableEq α] (seen : List α) : List α → List α
  | [] => []
  | a :: l => if a ∈ seen then setDedupAux seen l else a :: setDedupAux (a :: seen) l

/-- Model of `[...new Set(inputLines)]` starting from the empty set. -/
def setDedup [DecidableEq α] (l : List α) : List α := setDedupAux [] l

/-- Source `inputLines.sort()`: the default comparator sorts by the UTF-16 order
`jsLe`.  `jsLe` is total, transitive and antisymmetric on strings, so the
sorted permutation is unique and any sorting algorithm models `sort()`;
we use `List.insertionSort`. -/
def jsSort (lines : List Str) : List Str := List.insertionSort jsLe lines

/-- The word-list part of `main`: everything between reading the four inputs
and joining the output lines, step for step as in the source. -/
def mainWords (inputText : Str) (specialChars : List Char)
    (ignoredWords knownWords : List Str) : List Str :=
  let flattened := flattenText inputText
  let lowered := toLowerCaseText flattened
  let stripped := removeCharacters lowered specialChars
  let inputLines := (splitLines stripped).filter (fun line => line ≠ [])
  let sorted := jsSort inputLines
  let deduped := setDedup sorted
  let withoutIgnored := removeWords deduped ignoredWords
  removeWords withoutIgnored knownWords

/-- Source `inputLines.join('\n')`: the text written to `output.txt`. -/
def joinLines (ws : List Str) : Str := (List.intersperse ['\n'] ws).flatten

/-- The content `main` writes to `output.txt`. -/
def mainOutput (inputText : Str) (specialChars : List Char)
    (ignoredWords knownWords : List Str) : Str :=
  joinLines (mainWords inputText specialChars ignoredWords knownWords)

/-- The nonempty lines of the normalized input: what `main` computes just
before sorting. -/
def candidateLines (inputText : Str) (specialChars : List Char) : List Str :=
  (splitLines (removeCharacters (toLowerCaseText (flattenText inputText)) specialChars)).filter
    (fun line => line ≠ [])

/-- Sample inputs used by the concrete witness instances of the claims. -/
def sampleTextBACA : Str := ['b', ' ', 'a', ' ', 'c', ' ', 'a']

/-- A two-word sample input. -/
def sampleTextAB : Str := ['a', ' ', 'b']

/-- A two-word sample input in reverse order. -/
def sampleTextBA : Str := ['b', ' ', 'a']

/-- A word-separating whitespace character other than the line break itself:
space, tab, carriage return, vertical tab, form feed, no-break space. -/
def isWhitespaceSeparator (c : Char) : Bool :=
  c == ' ' || c == '\t' || c == Char.ofNat 13 || c == Char.ofNat 11 ||
    c == Char.ofNat 12 || c == Char.ofNat 160

/-- Reference definition following the words of the spec (section 4.2, claim C2):
take the normalized text, split it on line breaks, discard empty entries,
deduplicate, sort lexicographically, then remove every ignored word, then
every known word, comparing words by exact string equality. -/
def specWordList (inputText : Str) (specialChars : List Char)
    (ignoredWords knownWords : List Str) : List Str :=
  let normalized := removeCharacters (toLowerCaseText (flattenText inputText)) specialChars
  let entries := (splitLines normalized).filter (fun line => line ≠ [])
  let deduped := setDedup entries
  let sorted := jsSort deduped
  removeWords (removeWords sorted ignoredWords) knownWords

/-! ### Properties of the comparison key -/

theorem ltKey_irrefl (a : List Nat) : ltKey a a = false := by
  induction a with
  | nil => rfl
  | cons x xs ih => simp [ltKey, ih]

theorem ltKey_asymm : ∀ {a b : List Nat}, ltKey a b = true → ltKey b a = false
  | [], [], h => by simp [ltKey] at h
  | [], _ :: _, _ => rfl
  | _ :: _, [], h => by simp [ltKey] at h
  | x :: xs, y :: ys, h => by
    simp only [ltKey] at h ⊢
    by_cases hxy : x < y
    · simp [hxy, Nat.lt_asymm hxy]
    · by_cases hyx : y < x
      · simp [hxy, hyx] at h
      · have hxy' : x = y := Nat.le_antisymm (Nat.le_of_not_lt hyx) (Nat.le_of_not_lt hxy)
        simp [hxy, hyx, hxy'] at h ⊢
        exact ltKey_asymm h

theorem ltKey_trans : ∀ {a b c : List Nat},
    ltKey a b = true → ltKey b c = true → ltKey a c = true
  | _, [], _, h1, _ => by simp [ltKey] at h1
  | _, _, [], _, h2 => by simp [ltKey] at h2
  | [], _ :: _, _ :: _, _, _ => rfl
  | x :: xs, y :: ys, z :: zs, h1, h2 => by
    simp only [ltKey] at h1 h2 ⊢
    rcases Nat.lt_trichotomy x y with hxy | hxy | hxy
    · rcases Nat.lt_trichotomy y z with hyz | hyz | hyz
      · have hxz : x < z := Nat.lt_trans hxy hyz
        simp [hxz]
      · subst hyz
        simp [hxy]
      · rw [if_neg (by omega), if_pos hyz] at h2
        exact absurd h2 (by simp)
    · subst hxy
      rw [if_neg (Nat.lt_irrefl x), if_neg (Nat.lt_irrefl x)] at h1
      rcases Nat.lt_trichotomy x z with hxz | hxz | hxz
      · simp [hxz]
      · subst hxz
        rw [if_neg (Nat.lt_irrefl x), if_neg (Nat.lt_irrefl x)] at h2 ⊢
        exact ltKey_trans h1 h2
      · rw [if_neg (by omega), if_pos hxz] at h2
        exact absurd h2 (by simp)
    · rw [if_neg (by omega), if_pos hxy] at h1
      exact absurd h1 (by simp)

theorem ltKey_eq_of_not_lt : ∀ {a b : List Nat},
    ltKey a b = false → ltKey b a = false → a = b
  | [], [], _, _ => rfl
  | [], _ :: _, h1, _ => by simp [ltKey] at h1
  | _ :: _, [], _, h2 => by simp [ltKey] at h2
  | x :: xs, y :: ys, h1, h2 => by
    simp only [ltKey] at h1 h2
    rcases Nat.lt_trichotomy x y with hxy | hxy | hxy
    · simp [hxy] at h1
    · subst hxy
      simp only [if_neg (Nat.lt_irrefl x)] at h1 h2
      rw [ltKey_eq_of_not_lt h1 h2]
    · simp [hxy, Nat.lt_asymm hxy] at h2

/-! ### Injectivity of the UTF-16 key -/

theorem char_valid_nat (c : Char) :
    c.toNat < 55296 ∨ (57343 < c.toNat ∧ c.toNat < 1114112) := by
  have h := c.valid
  unfold UInt32.isValidChar Nat.isValidChar at h
  exact h

theorem utf16units_ne_nil (c : Char) : utf16units c ≠ [] := by
  unfold utf16units
  by_cases h : c.toNat < 65536 <;> simp [h]

theorem utf16units_decode {c₁ c₂ : Char} {k₁ k₂ : List Nat}
    (h : utf16units c₁ ++ k₁ = utf16units c₂ ++ k₂) : c₁ = c₂ ∧ k₁ = k₂ := by
  have v₁ := char_valid_nat c₁
  have v₂ := char_valid_nat c₂
  have toNat_inj : c₁.toNat = c₂.toNat → c₁ = c₂ := fun hv =>
    Char.eq_of_val_eq (UInt32.toNat.inj hv)
  unfold utf16units at h
  by_cases h₁ : c₁.toNat < 65536 <;> by_cases h₂ : c₂.toNat < 65536 <;>
    simp only [h₁, h₂, if_true, if_false, if_pos, if_neg, List.cons_append,
      List.nil_append, List.cons.injEq] at h
  · exact ⟨toNat_inj h.1, h.2⟩
  · exfalso
    have hq : (c₂.toNat - 65536) / 1024 < 1024 := Nat.div_lt_of_lt_mul (by omega)
    omega
  · exfalso
    have hq : (c₁.toNat - 65536) / 1024 < 1024 := Nat.div_lt_of_lt_mul (by omega)
    omega
  · obtain ⟨hhi, hlo, hk⟩ := h
    have e₁ := Nat.div_add_mod (c₁.toNat - 65536) 1024
    have e₂ := Nat.div_add_mod (c₂.toNat - 65536) 1024
    exact ⟨toNat_inj (by omega), hk⟩

theorem utf16Key_cons (c : Char) (s : Str) :
    utf16Key (c :: s) = utf16units c ++ utf16Key s := by
  simp [utf16Key]

theorem utf16Key_inj : ∀ {s t : Str}, utf16Key s = utf16Key t → s = t
  | [], [], _ => rfl
  | [], c :: cs, h => by
    rw [utf16Key_cons] at h
    exact absurd h.symm (by simp [utf16Key, utf16units_ne_nil c])
  | c :: cs, [], h => by
    rw [utf16Key_cons] at h
    exact absurd h (by simp [utf16Key, utf16units_ne_nil c])
  | c :: cs, d :: ds, h => by
    rw [utf16Key_cons, utf16Key_cons] at h
    obtain ⟨hc, hk⟩ := utf16units_decode h
    rw [hc, utf16Key_inj hk]

/-! ### The comparator is a linear order on strings -/

instance : IsTotal Str jsLe := by
  constructor
  intro a b
  unfold jsLe
  by_cases h : ltKey (utf16Key b) (utf16Key a) = true
  · exact Or.inr (ltKey_asymm h)
  · exact Or.inl (Bool.eq_false_iff.mpr h)

instance : IsTrans Str jsLe := by
  constructor
  intro a b c h1 h2
  unfold jsLe at h1 h2 ⊢
  by_cases hca : ltKey (utf16Key c) (utf16Key a) = true
  · exfalso
    by_cases hbc : ltKey (utf16Key b) (utf16Key c) = true
    · exact absurd (ltKey_trans hbc hca) (Bool.eq_false_iff.mp h1)
    · have : utf16Key b = utf16Key c :=
        ltKey_eq_of_not_lt (Bool.eq_false_iff.mpr hbc) h2
      rw [← this] at hca
      exact absurd hca (Bool.eq_false_iff.mp h1)
  · exact Bool.eq_false_iff.mpr hca

instance : IsAntisymm Str jsLe := by
  constructor
  intro a b h1 h2
  exact utf16Key_inj (ltKey_eq_of_not_lt h2 h1)

theorem jsLt_of_jsLe_of_ne {a b : Str} (h : jsLe a b) (hne : a ≠ b) : jsLt a b := by
  unfold jsLe at h
  unfold jsLt
  by_cases hab : ltKey (utf16Key a) (utf16Key b) = true
  · exact hab
  · exact absurd (utf16Key_inj (ltKey_eq_of_not_lt (Bool.eq_false_iff.mpr hab) h)) hne

theorem jsLt_asymm {a b : Str} (h : jsLt a b) : ¬ jsLt b a := by
  unfold jsLt at h ⊢
  rw [ltKey_asymm h]
  simp

/-! ### Properties of `setDedup` -/

theorem setDedupAux_sublist [DecidableEq α] :
    ∀ (l seen : List α), List.Sublist (setDedupAux seen l) l
  | [], _ => List.Sublist.refl []
  | a :: l, seen => by
    rw [setDedupAux]
    by_cases ha : a ∈ seen
    · rw [if_pos ha]
      exact (setDedupAux_sublist l seen).cons a
    · rw [if_neg ha]
      exact (setDedupAux_sublist l (a :: seen)).cons₂ a

theorem mem_setDedupAux [DecidableEq α] (a : α) :
    ∀ (l seen : List α), a ∈ setDedupAux seen l ↔ a ∈ l ∧ a ∉ seen
  | [], seen => by simp [setDedupAux]
  | b :: l, seen => by
    rw [setDedupAux]
    by_cases hb : b ∈ seen
    · rw [if_pos hb, mem_setDedupAux a l seen]
      constructor
      · rintro ⟨h1, h2⟩
        exact ⟨List.mem_cons_of_mem b h1, h2⟩
      · rintro ⟨h1, h2⟩
        rcases List.mem_cons.mp h1 with rfl | h1
        · exact absurd hb h2
        · exact ⟨h1, h2⟩
    · rw [if_neg hb]
      simp only [List.mem_cons, mem_setDedupAux a l (b :: seen)]
      by_cases hab : a = b
      · subst hab
        simp [hb]
      · simp only [hab, false_or]
        try tauto

theorem setDedupAux_nodup [DecidableEq α] :
    ∀ (l seen : List α), (setDedupAux seen l).Nodup
  | [], _ => List.nodup_nil
  | b :: l, seen => by
    rw [setDedupAux]
    by_cases hb : b ∈ seen
    · rw [if_pos hb]
      exact setDedupAux_nodup l seen
    · rw [if_neg hb]
      refine List.nodup_cons.mpr ⟨?_, setDedupAux_nodup l (b :: seen)⟩
      rw [mem_setDedupAux]
      simp

theorem setDedup_sublist [DecidableEq α] (l : List α) : List.Sublist (setDedup l) l :=
  setDedupAux_sublist l []

theorem mem_setDedup [DecidableEq α] {a : α} {l : List α} : a ∈ setDedup l ↔ a ∈ l := by
  rw [setDedup, mem_setDedupAux]
  simp

theorem setDedup_nodup [DecidableEq α] (l : List α) : (setDedup l).Nodup :=
  setDedupAux_nodup l []

/-! ### Properties of `splitLines` and `joinLines` -/

theorem splitLines_nil : splitLines [] = [[]] := rfl

theorem splitLines_cons_nl (s : Str) : splitLines ('\n' :: s) = [] :: splitLines s := by
  simp [splitLines]

theorem splitLines_shape : ∀ s : Str, ∃ h t, splitLines s = h :: t
  | [] => ⟨[], [], rfl⟩
  | c :: s => by
    obtain ⟨h, t, hs⟩ := splitLines_shape s
    by_cases hc : c = '\n'
    · subst hc
      exact ⟨[], splitLines s, splitLines_cons_nl s⟩
    · refine ⟨c :: h, t, ?_⟩
      simp only [splitLines, List.foldr_cons] at hs ⊢
      rw [hs, if_neg hc]

theorem splitLines_cons_other {c : Char} (hc : c ≠ '\n') {s : Str} {h : Str} {t : List Str}
    (hs : splitLines s = h :: t) : splitLines (c :: s) = (c :: h) :: t := by
  simp only [splitLines, List.foldr_cons] at hs ⊢
  rw [hs, if_neg hc]

theorem mem_splitLines_no_nl : ∀ (s : Str) (p : Str), p ∈ splitLines s → '\n' ∉ p
  | [], p, hp => by
    rw [splitLines_nil] at hp
    simp at hp
    simp [hp]
  | c :: s, p, hp => by
    by_cases hc : c = '\n'
    · subst hc
      rw [splitLines_cons_nl] at hp
      rcases List.mem_cons.mp hp with rfl | hp
      · simp
      · exact mem_splitLines_no_nl s p hp
    · obtain ⟨h, t, hs⟩ := splitLines_shape s
      rw [splitLines_cons_other hc hs] at hp
      rcases List.mem_cons.mp hp with rfl | hp
      · intro hmem
        rcases List.mem_cons.mp hmem with he | hmem
        · exact hc he.symm
        · exact mem_splitLines_no_nl s h (hs ▸ List.mem_cons_self h t) hmem
      · exact mem_splitLines_no_nl s p (hs ▸ List.mem_cons_of_mem h hp)

theorem splitLines_of_no_nl : ∀ {s : Str}, '\n' ∉ s → splitLines s = [s]
  | [], _ => rfl
  | c :: s, hs => by
    have hc : c ≠ '\n' := fun he => hs (he ▸ List.mem_cons_self c s)
    have hrec : '\n' ∉ s := fun hm => hs (List.mem_cons_of_mem c hm)
    exact splitLines_cons_other hc (splitLines_of_no_nl hrec)

theorem splitLines_word_append {rest : Str} :
    ∀ {w : Str}, '\n' ∉ w → splitLines (w ++ '\n' :: rest) = w :: splitLines rest
  | [], _ => splitLines_cons_nl rest
  | c :: w, hw => by
    have hc : c ≠ '\n' := fun he => hw (he ▸ List.mem_cons_self c w)
    have hrec : '\n' ∉ w := fun hm => hw (List.mem_cons_of_mem c hm)
    exact splitLines_cons_other hc (splitLines_word_append hrec)

theorem splitLines_append_nl : ∀ s : Str, splitLines (s ++ ['\n']) = splitLines s ++ [[]]
  | [] => rfl
  | c :: s => by
    by_cases hc : c = '\n'
    · subst hc
      rw [List.cons_append, splitLines_cons_nl, splitLines_cons_nl,
        splitLines_append_nl s, List.cons_append]
    · obtain ⟨h, t, hs⟩ := splitLines_shape s
      have hs' : splitLines (s ++ ['\n']) = h :: (t ++ [[]]) := by
        rw [splitLines_append_nl s, hs, List.cons_append]
      rw [List.cons_append, splitLines_cons_other hc hs', splitLines_cons_other hc hs,
        List.cons_append]

theorem joinLines_nil : joinLines [] = [] := rfl

theorem joinLines_singleton (w : Str) : joinLines [w] = w := by
  simp [joinLines]

theorem joinLines_cons {w : Str} {ws : List Str} (h : ws ≠ []) :
    joinLines (w :: ws) = w ++ '\n' :: joinLines ws := by
  cases ws with
  | nil => exact absurd rfl h
  | cons x t => simp [joinLines, List.intersperse]

theorem splitLines_joinLines :
    ∀ {ws : List Str}, ws ≠ [] → (∀ w ∈ ws, '\n' ∉ w) → splitLines (joinLines ws) = ws
  | [], h, _ => absurd rfl h
  | [w], _, hnl => by
    rw [joinLines_singleton, splitLines_of_no_nl (hnl w (List.mem_cons_self w []))]
  | w :: x :: t, _, hnl => by
    rw [joinLines_cons (List.cons_ne_nil x t),
      splitLines_word_append (hnl w (List.mem_cons_self w (x :: t))),
      splitLines_joinLines (List.cons_ne_nil x t)
        (fun v hv => hnl v (List.mem_cons_of_mem w hv))]

/-! ### `removeCharacters` strips exactly the listed characters -/

theorem mem_regexMetaChars_dot : '.' ∈ regexMetaChars := by
  simp [regexMetaChars]

theorem regexCharMatch_buildRegEx (ch d : Char) :
    regexCharMatch (buildRegEx [ch]) d = (d == ch) := by
  unfold buildRegEx escapeExpression
  by_cases h : ch ∈ regexMetaChars
  · simp [h, regexCharMatch]
  · have hdot : ch ≠ '.' := fun he => h (he ▸ mem_regexMetaChars_dot)
    simp [h, regexCharMatch, hdot]

theorem regexReplaceAll_buildRegEx (ch : Char) (text : Str) :
    regexReplaceAll (buildRegEx [ch]) text = text.filter (fun c => !(c == ch)) := by
  unfold regexReplaceAll
  apply List.filter_congr
  intro c _
  rw [regexCharMatch_buildRegEx]

theorem removeCharacters_cons (text : Str) (ch : Char) (chars : List Char) :
    removeCharacters text (ch :: chars) =
      removeCharacters (text.filter (fun c => !(c == ch))) chars := by
  rw [removeCharacters, List.foldl_cons, regexReplaceAll_buildRegEx, removeCharacters]

theorem removeCharacters_eq_filter :
    ∀ (chars : List Char) (text : Str),
      removeCharacters text chars = text.filter (fun c => !(chars.contains c))
  | [], text => by simp [removeCharacters]
  | ch :: chars, text => by
    rw [removeCharacters_cons, removeCharacters_eq_filter chars, List.filter_filter]
    apply List.filter_congr
    intro c _
    by_cases hc : c = ch <;> simp [List.contains_cons, hc, Bool.and_comm]

/-! ### `sort()` facts -/

theorem jsSort_sorted (l : List Str) : (jsSort l).Sorted jsLe :=
  List.sorted_insertionSort jsLe l

theorem jsSort_perm (l : List Str) : List.Perm (jsSort l) l :=
  List.perm_insertionSort jsLe l

/-- Since `jsLe` is total, transitive and antisymmetric, there is exactly one
sorted permutation of a given line list: any implementation of
`Array.prototype.sort()` yields `jsSort`. -/
theorem jsSort_unique {l l' : List Str} (hp : List.Perm l' l) (hs : l'.Sorted jsLe) :
    l' = jsSort l :=
  List.eq_of_perm_of_sorted (hp.trans (jsSort_perm l).symm) hs (jsSort_sorted l)

/-! ### Structure of the pipeline -/

theorem mainWords_eq (inputText : Str) (specialChars : List Char)
    (ignoredWords knownWords : List Str) :
    mainWords inputText specialChars ignoredWords knownWords =
      removeWords
        (removeWords (setDedup (jsSort (candidateLines inputText specialChars))) ignoredWords)
        knownWords := rfl

theorem mem_candidateLines_ne_nil {w : Str} {t : Str} {cs : List Char}
    (h : w ∈ candidateLines t cs) : w ≠ [] := by
  have := (List.mem_filter.mp h).2
  simpa using this

theorem mem_candidateLines_no_nl {w : Str} {t : Str} {cs : List Char}
    (h : w ∈ candidateLines t cs) : '\n' ∉ w :=
  mem_splitLines_no_nl _ w (List.mem_filter.mp h).1

theorem mem_removeWords {w : Str} {words rem : List Str} :
    w ∈ removeWords words rem ↔ w ∈ words ∧ w ∉ rem := by
  rw [removeWords, List.mem_filter]
  simp

theorem mem_mainWords {w : Str} {t : Str} {cs : List Char} {ig kn : List Str} :
    w ∈ mainWords t cs ig kn ↔ w ∈ candidateLines t cs ∧ w ∉ ig ∧ w ∉ kn := by
  rw [mainWords_eq, mem_removeWords, mem_removeWords, mem_setDedup,
    (jsSort_perm (candidateLines t cs)).mem_iff]
  tauto

theorem mainWords_sorted (t : Str) (cs : List Char) (ig kn : List Str) :
    (mainWords t cs ig kn).Sorted jsLe := by
  rw [mainWords_eq, removeWords, removeWords]
  exact (((jsSort_sorted (candidateLines t cs)).sublist
    (setDedup_sublist _)).filter _).filter _

theorem mainWords_nodup (t : Str) (cs : List Char) (ig kn : List Str) :
    (mainWords t cs ig kn).Nodup := by
  rw [mainWords_eq, removeWords, removeWords]
  exact ((setDedup_nodup _).filter _).filter _

theorem mainWords_pairwise_lt (t : Str) (cs : List Char) (ig kn : List Str) :
    (mainWords t cs ig kn).Pairwise jsLt := by
  have hs := mainWords_sorted t cs ig kn
  have hn := mainWords_nodup t cs ig kn
  exact (hs.and hn).imp (fun h => jsLt_of_jsLe_of_ne h.1 h.2)

theorem specWordList_eq (t : Str) (cs : List Char) (ig kn : List Str) :
    specWordList t cs ig kn =
      removeWords (removeWords (jsSort (setDedup (candidateLines t cs))) ig) kn := rfl

/-- Sorting then deduplicating produces the same list as deduplicating then
sorting: both are the sorted duplicate-free list of the same elements. -/
theorem setDedup_jsSort_comm (l : List Str) : setDedup (jsSort l) = jsSort (setDedup l) := by
  have h₁ : (setDedup (jsSort l)).Sorted jsLe :=
    (jsSort_sorted l).sublist (setDedup_sublist _)
  have h₂ : (setDedup (jsSort l)).Nodup := setDedup_nodup _
  have h₃ : (jsSort (setDedup l)).Nodup :=
    ((jsSort_perm (setDedup l)).nodup_iff).mpr (setDedup_nodup l)
  refine List.eq_of_perm_of_sorted ?_ h₁ (jsSort_sorted _)
  refine (List.perm_ext_iff_of_nodup h₂ h₃).mpr ?_
  intro a
  rw [mem_setDedup, (jsSort_perm l).mem_iff, (jsSort_perm (setDedup l)).mem_iff, mem_setDedup]

/-! ### Counting characters through `flattenText` -/

theorem flattenText_not_mem_space (input : Str) : ' ' ∉ flattenText input := by
  intro hmem
  obtain ⟨c, _, he⟩ := List.mem_map.mp hmem
  by_cases hc : c = ' '
  · rw [if_pos hc] at he
    exact absurd he (by decide)
  · rw [if_neg hc] at he
    exact hc he

theorem flattenText_count_nl :
    ∀ input : Str, (flattenText input).count '\n' = input.count '\n' + input.count ' '
  | [] => rfl
  | c :: input => by
    have ih := flattenText_count_nl input
    simp only [flattenText, List.map_cons, List.count_cons] at ih ⊢
    by_cases hc : c = ' '
    · subst hc
      have hh : (if (' ' : Char) = ' ' then ('\n' : Char) else ' ') = '\n' := rfl
      have e1 : (('\n' : Char) == '\n') = true := rfl
      have e2 : ((' ' : Char) == '\n') = false := rfl
      have e3 : ((' ' : Char) == ' ') = true := rfl
      rw [hh, ih, e1, e2, e3]
      have z0 : (if (false : Bool) = true then 1 else 0) = 0 := rfl
      have z1 : (if (true : Bool) = true then 1 else 0) = 1 := rfl
      simp only [z0, z1]
      omega
    · have hh : (if c = ' ' then ('\n' : Char) else c) = c := if_neg hc
      have e2 : (c == ' ') = false := beq_eq_false_iff_ne.mpr hc
      rw [hh, ih, e2]
      have z0 : (if (false : Bool) = true then 1 else 0) = 0 := rfl
      simp only [z0]
      omega

theorem flattenText_count_other {c : Char} (h1 : c ≠ ' ') (h2 : c ≠ '\n') :
    ∀ input : Str, (flattenText input).count c = input.count c
  | [] => rfl
  | d :: input => by
    have ih := flattenText_count_other h1 h2 input
    simp only [flattenText, List.map_cons, List.count_cons] at ih ⊢
    by_cases hd : d = ' '
    · subst hd
      have hh : (if (' ' : Char) = ' ' then ('\n' : Char) else ' ') = '\n' := rfl
      have e1 : (('\n' : Char) == c) = false := beq_eq_false_iff_ne.mpr (fun he => h2 he.symm)
      have e2 : ((' ' : Char) == c) = false := beq_eq_false_iff_ne.mpr (fun he => h1 he.symm)
      rw [hh, ih, e1, e2]
    · have hh : (if d = ' ' then ('\n' : Char) else d) = d := if_neg hd
      rw [hh, ih]

/-- A duplicate-free list all of whose members coincide has at most one
member. -/
theorem length_le_one_of_nodup_all_eq {α : Type} {l : List α} {a : α}
    (hn : l.Nodup) (h : ∀ w ∈ l, w = a) : l.length ≤ 1 := by
  match l with
  | [] => simp
  | [_] => simp
  | x :: y :: t =>
    exfalso
    have hx := h x (List.mem_cons_self x (y :: t))
    have hy := h y (List.mem_cons_of_mem x (List.mem_cons_self y t))
    have : x ∉ y :: t := (List.nodup_cons.mp hn).1
    exact this (hx.trans hy.symm ▸ List.mem_cons_self y t)

/-! ### The claims -/

/-- Claim C1: for every combination of input text, special-character list,
ignored-word list, and known-word list, the word list the pipeline writes to
output.txt is sorted lexicographically (by the sort comparator's lexicographic
string order), contains no duplicate entries, and contains no word that
appears in the ignored-word list and no word that appears in the known-word
list. -/
theorem C1_output_sorted_dedup_disjoint (t : Str) (cs : List Char) (ig kn : List Str) :
    (mainWords t cs ig kn).Sorted jsLe ∧ (mainWords t cs ig kn).Nodup ∧
      ∀ w ∈ mainWords t cs ig kn, w ∉ ig ∧ w ∉ kn := by
  refine ⟨mainWords_sorted t cs ig kn, mainWords_nodup t cs ig kn, fun w hw => ?_⟩
  exact (mem_mainWords.mp hw).2

theorem C1_witness :
    (mainWords sampleTextBACA ['.'] [['b']] [['c']]).Sorted jsLe ∧
      (mainWords sampleTextBACA ['.'] [['b']] [['c']]).Nodup ∧
      ∀ w ∈ mainWords sampleTextBACA ['.'] [['b']] [['c']],
        w ∉ [['b']] ∧ w ∉ [['c']] :=
  C1_output_sorted_dedup_disjoint sampleTextBACA ['.'] [['b']] [['c']]

/-- Claim C2: the working word list the pipeline produces equals the reference
definition of the spec: take the normalized text, split on line breaks,
discard empty entries, deduplicate, sort lexicographically, then remove every
ignored word, then every known word, comparing by exact string equality. -/
theorem C2_matches_reference (t : Str) (cs : List Char) (ig kn : List Str) :
    mainWords t cs ig kn = specWordList t cs ig kn := by
  rw [mainWords_eq, specWordList_eq, setDedup_jsSort_comm]

/-- Claim C3: running the pipeline a second time on the same input text,
special characters and ignored words, with the known words extended by the
first run's output, produces an empty output. -/
theorem C3_round_trip (t : Str) (cs : List Char) (ig kn : List Str) :
    mainWords t cs ig (kn ++ mainWords t cs ig kn) = [] := by
  rw [List.eq_nil_iff_forall_not_mem]
  intro w hw
  obtain ⟨hc, hig, hkn⟩ := mem_mainWords.mp hw
  rw [List.mem_append] at hkn
  push_neg at hkn
  exact hkn.2 (mem_mainWords.mpr ⟨hc, hig, hkn.1⟩)

/-- Claim C4 as stated is false on the code: `flattenText` replaces only the
space character U+0020, so a tab between two words survives the flattening
step even though it is a whitespace separator. -/
theorem C4_counterexample :
    ¬ (∀ (input : Str) (c : Char), c ∈ flattenText input →
        isWhitespaceSeparator c = true → c = '\n') := by
  intro h
  exact absurd (h ['a', '\t', 'b'] '\t' (by decide) (by decide)) (by decide)

/-- Claim C4 amended: the flattening step replaces exactly the space
characters (U+0020) with line breaks: no space remains, every space has become
a line break (witnessed by character counts), and every other character is
untouched. -/
theorem C4_amended_only_spaces_replaced (input : Str) :
    ' ' ∉ flattenText input ∧
      (flattenText input).count '\n' = input.count '\n' + input.count ' ' ∧
      ∀ c : Char, c ≠ ' ' → c ≠ '\n' → (flattenText input).count c = input.count c :=
  ⟨flattenText_not_mem_space input, flattenText_count_nl input,
    fun _ h1 h2 => flattenText_count_other h1 h2 input⟩

theorem C4_witness :
    ' ' ∉ flattenText sampleTextAB ∧
      (flattenText sampleTextAB).count '\n' = sampleTextAB.count '\n' + sampleTextAB.count ' ' ∧
      (flattenText sampleTextAB).count 'x' = sampleTextAB.count 'x' :=
  ⟨(C4_amended_only_spaces_replaced sampleTextAB).1,
    (C4_amended_only_spaces_replaced sampleTextAB).2.1,
    (C4_amended_only_spaces_replaced sampleTextAB).2.2 'x' (by decide) (by decide)⟩

/-- Claim C5: character stripping removes every occurrence of each configured
special character as a literal character (metacharacters such as the dot
remove only themselves, thanks to the escaping) and leaves every other
character untouched; the characters are processed one at a time, in the order
of the special-character list. -/
theorem C5_literal_character_stripping (text : Str) (chars : List Char) :
    removeCharacters text chars = text.filter (fun c => !(chars.contains c)) ∧
      ∀ (ch : Char) (rest : List Char),
        removeCharacters text (ch :: rest) =
          removeCharacters (removeCharacters text [ch]) rest := by
  refine ⟨removeCharacters_eq_filter chars text, fun ch rest => ?_⟩
  have h1 : removeCharacters text [ch] = text.filter (fun c => !(c == ch)) := by
    rw [removeCharacters_eq_filter]
    apply List.filter_congr
    intro c _
    by_cases hcc : c = ch <;> simp [List.contains_cons, hcc]
  rw [removeCharacters_cons, h1]

/-- Claim C6 as stated is false on the code: with input holding U+10000 and
U+E000 and empty exclusion files, `sort()` puts U+10000 first because its
first UTF-16 code unit (a high surrogate) is below U+E000, although its code
point is the larger of the two; so the output is not ordered by Unicode code
point comparison. -/
theorem C6_counterexample :
    ¬ (mainWords [Char.ofNat 65536, ' ', Char.ofNat 57344] [] [[]] [[]]).Pairwise cpLt := by
  decide

/-- Claim C6 amended: the sort applied to the word list orders words by
UTF-16 code-unit lexicographic comparison: of every pair of distinct words in
the output, the one smaller in that order appears first. -/
theorem C6_amended_utf16_order (t : Str) (cs : List Char) (ig kn : List Str) :
    (mainWords t cs ig kn).Pairwise jsLt :=
  mainWords_pairwise_lt t cs ig kn

/-- Claim C7: the pipeline is deterministic: two runs on identical contents of
the four input files write identical contents to output.txt. -/
theorem C7_deterministic (t₁ t₂ : Str) (cs₁ cs₂ : List Char) (ig₁ ig₂ kn₁ kn₂ : List Str)
    (ht : t₁ = t₂) (hcs : cs₁ = cs₂) (hig : ig₁ = ig₂) (hkn : kn₁ = kn₂) :
    mainOutput t₁ cs₁ ig₁ kn₁ = mainOutput t₂ cs₂ ig₂ kn₂ := by
  rw [ht, hcs, hig, hkn]

theorem C7_witness :
    mainOutput sampleTextAB ['.'] [[]] [[]] = mainOutput sampleTextAB ['.'] [[]] [[]] :=
  C7_deterministic _ _ _ _ _ _ _ _ rfl rfl rfl rfl

/-- Claim C8: every output word is nonempty and contains no line break; when
the word list is empty the file content is the empty string, and otherwise the
file content splits back into exactly the word list — hence no blank lines and
no leading or trailing newline. -/
theorem C8_output_file_shape (t : Str) (cs : List Char) (ig kn : List Str) :
    (∀ w ∈ mainWords t cs ig kn, w ≠ [] ∧ '\n' ∉ w) ∧
      (mainWords t cs ig kn = [] → mainOutput t cs ig kn = []) ∧
      (mainWords t cs ig kn ≠ [] →
        splitLines (mainOutput t cs ig kn) = mainWords t cs ig kn) := by
  have hmem : ∀ w ∈ mainWords t cs ig kn, w ≠ [] ∧ '\n' ∉ w := by
    intro w hw
    have hc := (mem_mainWords.mp hw).1
    exact ⟨mem_candidateLines_ne_nil hc, mem_candidateLines_no_nl hc⟩
  refine ⟨hmem, fun h => ?_, fun h => ?_⟩
  · rw [mainOutput, h, joinLines_nil]
  · rw [mainOutput]
    exact splitLines_joinLines h (fun w hw => (hmem w hw).2)

theorem C8_witness :
    (∀ w ∈ mainWords sampleTextBA [] [[]] [[]], w ≠ [] ∧ '\n' ∉ w) ∧
      (mainWords sampleTextBA [] [[]] [[]] = [] → mainOutput sampleTextBA [] [[]] [[]] = []) ∧
      (mainWords sampleTextBA [] [[]] [[]] ≠ [] →
        splitLines (mainOutput sampleTextBA [] [[]] [[]]) = mainWords sampleTextBA [] [[]] [[]]) :=
  C8_output_file_shape sampleTextBA [] [[]] [[]]

/-- Claim C9: when the special-character list contains the newline character,
every line break of the flattened, lower-cased text is deleted by the
stripping step, so the stripped text contains no line break, the output has at
most one word, and any output word is the entire stripped text. -/
theorem C9_newline_special_char (t : Str) (cs : List Char) (ig kn : List Str)
    (h : '\n' ∈ cs) :
    '\n' ∉ removeCharacters (toLowerCaseText (flattenText t)) cs ∧
      (mainWords t cs ig kn).length ≤ 1 ∧
      ∀ w ∈ mainWords t cs ig kn,
        w = removeCharacters (toLowerCaseText (flattenText t)) cs := by
  have hnl : '\n' ∉ removeCharacters (toLowerCaseText (flattenText t)) cs := by
    rw [removeCharacters_eq_filter]
    intro hmem
    have hb := (List.mem_filter.mp hmem).2
    rw [Bool.not_eq_eq_eq_not, Bool.not_true] at hb
    exact absurd (List.elem_iff.mpr h) (by rw [List.contains] at hb; rw [hb]; simp)
  have hsplit : candidateLines t cs =
      ([removeCharacters (toLowerCaseText (flattenText t)) cs]).filter
        (fun line => line ≠ []) := by
    rw [candidateLines, splitLines_of_no_nl hnl]
  have hall : ∀ w ∈ mainWords t cs ig kn,
      w = removeCharacters (toLowerCaseText (flattenText t)) cs := by
    intro w hw
    have hc := (mem_mainWords.mp hw).1
    rw [hsplit] at hc
    have := (List.mem_filter.mp hc).1
    simpa using this
  exact ⟨hnl, length_le_one_of_nodup_all_eq (mainWords_nodup t cs ig kn) hall, hall⟩

theorem C9_witness :
    '\n' ∉ removeCharacters (toLowerCaseText (flattenText sampleTextAB)) ['\n'] ∧
      (mainWords sampleTextAB ['\n'] [[]] [[]]).length ≤ 1 ∧
      ∀ w ∈ mainWords sampleTextAB ['\n'] [[]] [[]],
        w = removeCharacters (toLowerCaseText (flattenText sampleTextAB)) ['\n'] :=
  C9_newline_special_char sampleTextAB ['\n'] [[]] [[]] (by decide)

/-- Claim C10: word files are split on line breaks keeping empty pieces, so a
trailing newline yields an empty-string entry; and empty-string entries in the
exclusion lists never remove anything, because every candidate output word is
nonempty: filtering them away leaves the output unchanged. -/
theorem C10_empty_entries_harmless (t : Str) (cs : List Char) (ig kn : List Str) :
    (∀ s : Str, getListOfWords (s ++ ['\n']) = getListOfWords s ++ [[]]) ∧
      mainWords t cs (ig.filter (fun w => w ≠ [])) (kn.filter (fun w => w ≠ [])) =
        mainWords t cs ig kn := by
  refine ⟨fun s => splitLines_append_nl s, ?_⟩
  refine List.eq_of_perm_of_sorted
    ((List.perm_ext_iff_of_nodup (mainWords_nodup t cs _ _) (mainWords_nodup t cs ig kn)).mpr ?_)
    (mainWords_sorted t cs _ _) (mainWords_sorted t cs ig kn)
  intro a
  constructor
  · intro hmem
    obtain ⟨hc, hig, hkn⟩ := mem_mainWords.mp hmem
    have hne := mem_candidateLines_ne_nil hc
    refine mem_mainWords.mpr ⟨hc, fun hm => hig ?_, fun hm => hkn ?_⟩
    · exact List.mem_filter.mpr ⟨hm, by simpa using hne⟩
    · exact List.mem_filter.mpr ⟨hm, by simpa using hne⟩
  · intro hmem
    obtain ⟨hc, hig, hkn⟩ := mem_mainWords.mp hmem
    refine mem_mainWords.mpr ⟨hc, fun hm => hig (List.mem_filter.mp hm).1,
      fun hm => hkn (List.mem_filter.mp hm).1⟩

end DocWordExtractor
